import Mathlib

/-!
Verification of the bgrep match-scanning / region-derivation engine
(`src/grep.rs`) against its natural-language specification.

The code is shallowly embedded: byte buffers are `List Nat`, match spans
are pairs `(start, end)` of naturals, the regex engine (an external
collaborator) is abstracted as the ordered list of non-overlapping match
spans it yields on a buffer, and every grep function is a pure Lean
function returning the list of output lines it writes together with the
boolean it returns.  A concrete literal-substring matcher `litMatches`
reproduces the engine's leftmost non-overlapping semantics (including
empty patterns) for the spec's concrete examples.
-/

namespace Bgrep

/-- A byte buffer: one input's full content. -/
abbrev Buffer := List Nat

/-- A half-open byte range `[start, end)`, as produced by the matcher
(`MatchSpan`) or derived for inverse mode (`GapSpan`). -/
abbrev Span := Nat × Nat

/-- The three output strategies of `args::Output`. -/
inductive Output where
  | FileName
  | Bytes
  | Offset
deriving DecidableEq, Repr

/-- The option record consumed read-only by the core (fields exactly as
read off `options.*` uses in `src/grep.rs`). -/
structure Options where
  case_insensitive : Bool
  inverse : Bool
  non_matching : Bool
  trim_ending_newline : Bool
  output : Output
deriving DecidableEq, Repr

/-- `&buffer[s..e]`: the bytes of `buffer` covered by a span. -/
def sliceBytes (buffer : Buffer) (sp : Span) : List Nat :=
  (buffer.take sp.2).drop sp.1

/-- Boolean form of the matcher's output invariant starting at position
`pos`: spans are in ascending order, non-overlapping (each span starts at
or after the previous span's end), with `start ≤ end ≤ len`.  This is the
documented contract of the engine's leftmost non-overlapping iteration. -/
def validFromB (pos len : Nat) : List Span → Bool
  | [] => true
  | m :: rest => decide (pos ≤ m.1) && decide (m.1 ≤ m.2) && decide (m.2 ≤ len)
      && validFromB m.2 len rest

/-- Propositional form of `validFromB`. -/
def ValidFrom (pos len : Nat) (ms : List Span) : Prop :=
  validFromB pos len ms = true

instance (pos len : Nat) (ms : List Span) : Decidable (ValidFrom pos len ms) := by
  unfold ValidFrom; infer_instance

theorem validFrom_nil (pos len : Nat) : ValidFrom pos len [] := rfl

theorem validFrom_cons {pos len : Nat} {m : Span} {rest : List Span} :
    ValidFrom pos len (m :: rest) ↔
      pos ≤ m.1 ∧ m.1 ≤ m.2 ∧ m.2 ≤ len ∧ ValidFrom m.2 len rest := by
  simp [ValidFrom, validFromB, Bool.and_eq_true, decide_eq_true_iff, and_assoc]

/-- Byte-list equality test used by the literal matcher. -/
def leadsWith : List Nat → List Nat → Bool
  | [], _ => true
  | _ :: _, [] => false
  | p :: ps, b :: bs => (p == b) && leadsWith ps bs

/-- Leftmost non-overlapping literal-substring matcher: a concrete
instance of the external regex engine, mirroring `find_iter` (an empty
pattern matches at every position, like the regex crate).  Structural
recursion on a fuel bound keeps it kernel-computable; each step consumes
at least one remaining byte, so `rem.length + 1` fuel always suffices. -/
def litGo (pat : List Nat) : Nat → Nat → List Nat → List Span
  | 0, _, _ => []
  | _ + 1, pos, [] => if pat.isEmpty then [(pos, pos)] else []
  | fuel + 1, pos, b :: bs =>
      if pat.isEmpty then (pos, pos) :: litGo pat fuel (pos + 1) bs
      else if leadsWith pat (b :: bs) then
        (pos, pos + pat.length) :: litGo pat fuel (pos + pat.length) ((b :: bs).drop pat.length)
      else
        litGo pat fuel (pos + 1) bs

/-- All match spans of literal pattern `pat` in `buffer`, in order. -/
def litMatches (pat : List Nat) (buffer : Buffer) : List Span :=
  litGo pat (buffer.length + 1) 0 buffer

/-- One lowercase hexadecimal digit, as Rust's `{:x}` renders it. -/
def hexDigitChar : Nat → Char
  | 0 => '0' | 1 => '1' | 2 => '2' | 3 => '3' | 4 => '4'
  | 5 => '5' | 6 => '6' | 7 => '7' | 8 => '8' | 9 => '9'
  | 10 => 'a' | 11 => 'b' | 12 => 'c' | 13 => 'd' | 14 => 'e'
  | 15 => 'f' | _ => 'x'

/-- Digit list of `n` in base 16, most significant first, empty for 0;
fuel-bounded structural recursion (`n / 16 < n`, so fuel `n` suffices). -/
def hexCore : Nat → Nat → List Char
  | _, 0 => []
  | 0, _ + 1 => []
  | fuel + 1, n + 1 => hexCore fuel ((n + 1) / 16) ++ [hexDigitChar ((n + 1) % 16)]

/-- `format!("{:x}", n)`: minimal lowercase hexadecimal. -/
def hexStr (n : Nat) : String :=
  if n = 0 then "0" else String.mk (hexCore n n)

/-- The line `grep_offset`'s `write_hex` emits for offset `x`. -/
def hexLine (x : Nat) : String := "0x" ++ hexStr x

/-- The cursor loop of `grep_offset`'s inverse branch (and §4.2's gap
derivation as the code implements it): each emission of `write_hex end`
is recorded as the gap span `[end, m.start)`; the cursor is advanced by
plain assignment `end = m.end()`, and a final gap covers the tail. -/
def gapsAsgn (end0 : Nat) (ms : List Span) (len : Nat) : List Span :=
  match ms with
  | [] => if end0 < len then [(end0, len)] else []
  | m :: rest =>
      if m.1 > end0 then (end0, m.1) :: gapsAsgn m.2 rest len
      else gapsAsgn m.2 rest len

/-- §4.2's gap-derivation algorithm exactly as the spec words it, for the
refinement comparison: the cursor is advanced by `max(end, m.end)` so it
"never moves backward". -/
def gapsMax (end0 : Nat) (ms : List Span) (len : Nat) : List Span :=
  match ms with
  | [] => if end0 < len then [(end0, len)] else []
  | m :: rest =>
      if m.1 > end0 then (end0, m.1) :: gapsMax (max end0 m.2) rest len
      else gapsMax (max end0 m.2) rest len

/-- `matches.find(|m| { let matched = m.start() > end; end = m.end(); matched })`
from `grep_filename`'s inverse branch: returns the first match strictly
after the cursor (if any) together with the cursor's final value. -/
def findHole (end0 : Nat) : List Span → Option Span × Nat
  | [] => (none, end0)
  | m :: rest => if m.1 > end0 then (some m, m.2) else findHole m.2 rest

/-- `Regex::split(buffer)`: the slices outside the matches, in order —
before the first match, between consecutive matches, and after the last
match (always one more fragment than there are matches). -/
def splitSlices (pos : Nat) (ms : List Span) (buffer : Buffer) : List (List Nat) :=
  match ms with
  | [] => [sliceBytes buffer (pos, buffer.length)]
  | m :: rest => sliceBytes buffer (pos, m.1) :: splitSlices m.2 rest buffer

/-- `grep_filename`: writes `path` iff the (mode-specific raw result XOR
`non_matching`) boolean is true; returns that boolean.  `pattern.is_match`
is modelled as the matcher's span list being non-empty. -/
def grep_filename (options : Options) (path : String) (ms : List Span)
    (len : Nat) : List String × Bool :=
  if options.inverse then
    let fh := findHole 0 ms
    let matched := (fh.1.isSome || decide (fh.2 < len)) ^^ options.non_matching
    (if matched then [path] else [], matched)
  else
    let matched := (!ms.isEmpty) ^^ options.non_matching
    (if matched then [path] else [], matched)

/-- `grep_bytes`: forward mode writes each match's bytes, one per line;
inverse mode splits the buffer on matches and writes each non-empty
fragment.  Faithfully to the source, in the inverse branch the `matched`
flag is set only when the *first* fragment is non-empty (the loop over the
remaining fragments writes lines without touching the flag). -/
def grep_bytes (options : Options) (ms : List Span) (buffer : Buffer) :
    List (List Nat) × Bool :=
  if options.inverse then
    match splitSlices 0 ms buffer with
    | [] => ([], false)
    | first :: rest =>
        ((if first.isEmpty then [] else [first])
            ++ rest.filter (fun bs => !bs.isEmpty),
         !first.isEmpty)
  else
    match ms with
    | [] => ([], false)
    | m :: rest => (sliceBytes buffer m :: rest.map (sliceBytes buffer), true)

/-- `grep_offset`: forward mode writes each match's start offset in hex;
inverse mode runs the cursor loop, writing each gap's start offset.  In
both branches the returned flag is set exactly when a line is written. -/
def grep_offset (options : Options) (ms : List Span) (len : Nat) :
    List String × Bool :=
  if options.inverse then
    let gs := gapsAsgn 0 ms len
    (gs.map (fun g => hexLine g.1), !gs.isEmpty)
  else
    match ms with
    | [] => ([], false)
    | m :: rest => (hexLine m.1 :: rest.map (fun m => hexLine m.1), true)

/-- The trim step of `run`:
`if options.trim_ending_newline && buffer.last() == Some(&b'\n') { buffer.pop(); }`. -/
def trimBuffer (options : Options) (buffer : Buffer) : Buffer :=
  if options.trim_ending_newline && buffer.getLast? == some 10 then
    buffer.dropLast
  else buffer

/-- One logical input of a run: its open/read either succeeds with the
bytes read, or fails with an I/O error (abstracted as a numeric code). -/
inductive Input where
  | ok (buf : Buffer)
  | openErr (e : Nat)
  | readErr (e : Nat)
deriving DecidableEq, Repr

/-- One line written to the output sink: raw bytes (Bytes mode) or text
(Offset and FileName modes). -/
inductive OutLine where
  | bytes (bs : List Nat)
  | text (s : String)
deriving DecidableEq, Repr

/-- `path == "-"` selects standard input, displayed as `<stdin>`. -/
def displayPath (path : String) : String :=
  if path = "-" then "<stdin>" else path

/-- Dispatch on `options.output`, tagging lines for the common sink. -/
def grepOne (options : Options) (matcher : Buffer → List Span)
    (path : String) (buffer : Buffer) : List OutLine × Bool :=
  match options.output with
  | .FileName =>
      let r := grep_filename options (displayPath path) (matcher buffer) buffer.length
      (r.1.map OutLine.text, r.2)
  | .Bytes =>
      let r := grep_bytes options (matcher buffer) buffer
      (r.1.map OutLine.bytes, r.2)
  | .Offset =>
      let r := grep_offset options (matcher buffer) buffer.length
      (r.1.map OutLine.text, r.2)

/-- Rust's `Result::and` on the fold accumulator: `result.and(Ok(true))`. -/
def resultAnd (a b : Except Nat Bool) : Except Nat Bool :=
  match a with
  | .error e => .error e
  | .ok _ => b

/-- The fold body of `run`: an open or read error makes the closure
return `Err(e)` (via `?` / early `return`), which becomes the new
accumulator — the fold itself continues with the next input.  On success
the buffer is trimmed, grepped, its lines written, and the match flag
folded in via `result.and(Ok(true))`. -/
def runStep (options : Options) (matcher : Buffer → List Span)
    (acc : List OutLine × Except Nat Bool) (inp : String × Input) :
    List OutLine × Except Nat Bool :=
  match inp.2 with
  | .openErr e => (acc.1, .error e)
  | .readErr e => (acc.1, .error e)
  | .ok buf =>
      let buffer := trimBuffer options buf
      let r := grepOne options matcher inp.1 buffer
      (acc.1 ++ r.1, if r.2 then resultAnd acc.2 (.ok true) else acc.2)

/-- `run`: fold over the ordered inputs, starting from `Ok(false)`,
producing everything written to stdout and the final `io::Result<bool>`. -/
def run (options : Options) (matcher : Buffer → List Span)
    (files : List (String × Input)) : List OutLine × Except Nat Bool :=
  files.foldl (runStep options matcher) ([], .ok false)

/-! ### Helper lemmas about the gap derivation -/

theorem validFrom_mono {pos pos' len : Nat} {ms : List Span}
    (h : ValidFrom pos len ms) (hle : pos' ≤ pos) : ValidFrom pos' len ms := by
  cases ms with
  | nil => exact validFrom_nil pos' len
  | cons m rest =>
      rcases validFrom_cons.mp h with ⟨h1, h2, h3, h4⟩
      exact validFrom_cons.mpr ⟨le_trans hle h1, h2, h3, h4⟩

/-- Under the matcher's non-overlap invariant, the plain-assignment cursor
of the code and the `max`-based cursor of §4.2 derive the same gaps. -/
theorem gapsAsgn_eq_gapsMax {len : Nat} :
    ∀ {ms : List Span} {end0 : Nat}, ValidFrom end0 len ms →
      gapsAsgn end0 ms len = gapsMax end0 ms len := by
  intro ms
  induction ms with
  | nil => intro end0 _; rfl
  | cons m rest ih =>
      intro end0 h
      rcases validFrom_cons.mp h with ⟨h1, h2, _, h4⟩
      have hmax : max end0 m.2 = m.2 := max_eq_right (le_trans h1 h2)
      simp only [gapsAsgn, gapsMax, hmax]
      by_cases hc : m.1 > end0 <;> simp [hc, ih h4]

/-- Under the non-overlap invariant the cursor never moves backward:
the successive values taken by `end` form a monotone chain. -/
theorem cursor_monotone {len : Nat} :
    ∀ {ms : List Span} {end0 : Nat}, ValidFrom end0 len ms →
      List.Chain' (· ≤ ·) (end0 :: ms.map Prod.snd) := by
  intro ms
  induction ms with
  | nil => intro end0 _; simp
  | cons m rest ih =>
      intro end0 h
      rcases validFrom_cons.mp h with ⟨h1, h2, _, h4⟩
      exact List.Chain'.cons (le_trans h1 h2) (ih h4)

/-- The hole test of `grep_filename`'s inverse branch agrees with
non-emptiness of the gap list derived by `grep_offset`'s inverse loop. -/
theorem findHole_iff_gaps {len : Nat} :
    ∀ (ms : List Span) (end0 : Nat),
      ((findHole end0 ms).1.isSome || decide ((findHole end0 ms).2 < len))
        = !(gapsAsgn end0 ms len).isEmpty := by
  intro ms
  induction ms with
  | nil =>
      intro end0
      by_cases hc : end0 < len <;> simp [findHole, gapsAsgn, hc]
  | cons m rest ih =>
      intro end0
      by_cases hc : m.1 > end0 <;> simp [findHole, gapsAsgn, hc, ih]

/-- Every span of a valid match list starts at or after `pos` and is
well-formed within `len`. -/
theorem validFrom_mem {len : Nat} :
    ∀ {ms : List Span} {pos : Nat}, ValidFrom pos len ms →
      ∀ m ∈ ms, pos ≤ m.1 ∧ m.1 ≤ m.2 ∧ m.2 ≤ len := by
  intro ms
  induction ms with
  | nil => intro pos _ m hm; cases hm
  | cons a rest ih =>
      intro pos h m hm
      rcases validFrom_cons.mp h with ⟨h1, h2, h3, h4⟩
      rcases List.mem_cons.mp hm with hm | hm
      · exact hm ▸ ⟨h1, h2, h3⟩
      · have := ih h4 m hm
        exact ⟨le_trans (le_trans h1 h2) this.1, this.2⟩

/-- Every derived gap starts at or after `pos`, is non-degenerate, and
ends within `len`. -/
theorem gapsAsgn_mem {len : Nat} :
    ∀ {ms : List Span} {pos : Nat}, ValidFrom pos len ms →
      ∀ g ∈ gapsAsgn pos ms len, pos ≤ g.1 ∧ g.1 < g.2 ∧ g.2 ≤ len := by
  intro ms
  induction ms with
  | nil =>
      intro pos _ g hg
      simp only [gapsAsgn] at hg
      by_cases hc : pos < len
      · simp [hc] at hg
        exact hg ▸ ⟨le_refl _, hc, le_refl _⟩
      · simp [hc] at hg
  | cons m rest ih =>
      intro pos h g hg
      rcases validFrom_cons.mp h with ⟨h1, h2, h3, h4⟩
      simp only [gapsAsgn] at hg
      by_cases hc : m.1 > pos
      · simp only [if_pos hc] at hg
        rcases List.mem_cons.mp hg with hg | hg
        · exact hg ▸ ⟨le_refl _, hc, le_trans h2 h3⟩
        · have := ih h4 g hg
          exact ⟨le_trans (le_trans h1 h2) this.1, this.2⟩
      · simp only [if_neg hc] at hg
        have := ih h4 g hg
        exact ⟨le_trans (le_trans h1 h2) this.1, this.2⟩

/-! ### Partition of the byte range by matches and gaps -/

/-- Whether byte index `i` lies inside span `sp`. -/
def containsIdx (i : Nat) (sp : Span) : Bool := decide (sp.1 ≤ i ∧ i < sp.2)

theorem countP_containsIdx_zero {i : Nat} {l : List Span}
    (h : ∀ sp ∈ l, i < sp.1 ∨ sp.2 ≤ i) : l.countP (containsIdx i) = 0 := by
  rw [List.countP_eq_zero]
  intro sp hsp
  rcases h sp hsp with hc | hc <;> simp [containsIdx] <;> omega

/-- The match spans together with the derived gap spans cover each index
in `[pos, len)` exactly once. -/
theorem partitionFrom {len : Nat} :
    ∀ {ms : List Span} {pos i : Nat}, ValidFrom pos len ms → pos ≤ i → i < len →
      ((ms ++ gapsAsgn pos ms len).countP (containsIdx i)) = 1 := by
  intro ms
  induction ms with
  | nil =>
      intro pos i _ hpi hil
      have hc : pos < len := lt_of_le_of_lt hpi hil
      simp [gapsAsgn, hc, containsIdx, hpi, hil]
  | cons m rest ih =>
      intro pos i h hpi hil
      rcases validFrom_cons.mp h with ⟨h1, h2, h3, h4⟩
      have hrest0 : i < m.2 → rest.countP (containsIdx i) = 0 := by
        intro hi
        exact countP_containsIdx_zero (fun sp hsp =>
          Or.inl (lt_of_lt_of_le hi (validFrom_mem h4 sp hsp).1))
      have hgaps0 : i < m.2 → (gapsAsgn m.2 rest len).countP (containsIdx i) = 0 := by
        intro hi
        exact countP_containsIdx_zero (fun g hg =>
          Or.inl (lt_of_lt_of_le hi (gapsAsgn_mem h4 g hg).1))
      rcases Nat.lt_or_ge i m.1 with hio | him
      · -- i strictly before this match: it lies in the gap `[pos, m.1)`
        have hc : m.1 > pos := lt_of_le_of_lt hpi hio
        have him2 : i < m.2 := lt_of_lt_of_le hio h2
        simp only [gapsAsgn, if_pos hc, List.countP_append, List.countP_cons]
        rw [hrest0 him2, hgaps0 him2]
        have hm : containsIdx i m = false := by simp [containsIdx]; omega
        have hg : containsIdx i (pos, m.1) = true := by simp [containsIdx]; omega
        simp [hm, hg]
      rcases Nat.lt_or_ge i m.2 with him2 | hie
      · -- i inside this match span
        have hm : containsIdx i m = true := by simp [containsIdx]; omega
        by_cases hc : m.1 > pos
        · have hg : containsIdx i (pos, m.1) = false := by simp [containsIdx]; omega
          simp only [gapsAsgn, if_pos hc, List.countP_append, List.countP_cons]
          rw [hrest0 him2, hgaps0 him2]
          simp [hm, hg]
        · simp only [gapsAsgn, if_neg hc, List.countP_append, List.countP_cons]
          rw [hrest0 him2, hgaps0 him2]
          simp [hm]
      · -- i after this match span: defer to the tail
        have htail := ih h4 hie hil
        simp only [List.countP_append] at htail
        have hm : containsIdx i m = false := by simp [containsIdx]; omega
        by_cases hc : m.1 > pos
        · have hg : containsIdx i (pos, m.1) = false := by
            simp [containsIdx]; omega
          simp only [gapsAsgn, if_pos hc, List.countP_append, List.countP_cons]
          simp [hm, hg]
          omega
        · simp only [gapsAsgn, if_neg hc, List.countP_append, List.countP_cons]
          simp [hm]
          omega

/-! ### Split fragments versus derived gaps -/

theorem sliceBytes_length (buffer : Buffer) (s e : Nat) :
    (sliceBytes buffer (s, e)).length = min e buffer.length - s := by
  simp [sliceBytes]

theorem sliceBytes_empty_iff {buffer : Buffer} {s e : Nat} (he : e ≤ buffer.length) :
    (sliceBytes buffer (s, e)).isEmpty = true ↔ e ≤ s := by
  rw [List.isEmpty_iff, ← List.length_eq_zero, sliceBytes_length]
  omega

/-- Filtering the empty fragments out of `Regex::split`'s output leaves
exactly the slices of the derived gaps, in order. -/
theorem splitSlices_filter {buffer : Buffer} :
    ∀ {ms : List Span} {pos : Nat}, ValidFrom pos buffer.length ms →
      pos ≤ buffer.length →
      (splitSlices pos ms buffer).filter (fun bs => !bs.isEmpty)
        = (gapsAsgn pos ms buffer.length).map (sliceBytes buffer) := by
  intro ms
  induction ms with
  | nil =>
      intro pos _ hpos
      by_cases hc : pos < buffer.length
      · have hne : (sliceBytes buffer (pos, buffer.length)).isEmpty = false := by
          rw [Bool.eq_false_iff]
          intro hcon
          exact absurd ((sliceBytes_empty_iff le_rfl).mp hcon) (by omega)
        simp [splitSlices, gapsAsgn, hc, List.filter_cons, hne]
      · have hemp : (sliceBytes buffer (pos, buffer.length)).isEmpty = true :=
          (sliceBytes_empty_iff le_rfl).mpr (by omega)
        simp [splitSlices, gapsAsgn, hc, List.filter_cons, hemp]
  | cons m rest ih =>
      intro pos h hpos
      rcases validFrom_cons.mp h with ⟨h1, h2, h3, h4⟩
      have hrec := ih h4 h3
      by_cases hc : m.1 > pos
      · have hne : (sliceBytes buffer (pos, m.1)).isEmpty = false := by
          rw [Bool.eq_false_iff]
          intro hcon
          exact absurd ((sliceBytes_empty_iff (le_trans h2 h3)).mp hcon) (by omega)
        simp [splitSlices, gapsAsgn, hc, List.filter_cons, hne, hrec]
      · have hemp : (sliceBytes buffer (pos, m.1)).isEmpty = true :=
          (sliceBytes_empty_iff (le_trans h2 h3)).mpr (by omega)
        simp [splitSlices, gapsAsgn, hc, List.filter_cons, hemp, hrec]

theorem splitSlices_ne_nil (pos : Nat) (ms : List Span) (buffer : Buffer) :
    splitSlices pos ms buffer ≠ [] := by
  cases ms <;> simp [splitSlices]

/-- The lines written by `grep_bytes`'s inverse branch are the non-empty
split fragments, in order (the first-fragment special case in the source
merely peels one filter step off). -/
theorem grep_bytes_inverse_lines {options : Options} (hinv : options.inverse = true)
    (ms : List Span) (buffer : Buffer) :
    (grep_bytes options ms buffer).1
      = (splitSlices 0 ms buffer).filter (fun bs => !bs.isEmpty) := by
  rcases hs : splitSlices 0 ms buffer with _ | ⟨first, rest⟩
  · exact absurd hs (splitSlices_ne_nil _ _ _)
  · by_cases hf : first.isEmpty <;>
      simp [grep_bytes, hinv, hs, hf, List.filter_cons]

/-! ### Hexadecimal formatting -/

theorem hexCore_zero (fuel : Nat) : hexCore fuel 0 = [] := by
  cases fuel <;> rfl

theorem hexCore_first : ∀ fuel n, 0 < n → n ≤ fuel →
    ∃ c, (hexCore fuel n).head? = some c ∧ c ≠ '0' := by
  intro fuel
  induction fuel with
  | zero => intro n hn hle; omega
  | succ fuel ih =>
      intro n hn hle
      rcases n with _ | m
      · omega
      show ∃ c, (hexCore fuel ((m + 1) / 16) ++ [hexDigitChar ((m + 1) % 16)]).head?
          = some c ∧ c ≠ '0'
      by_cases hq : (m + 1) / 16 = 0
      · have hlt : m + 1 < 16 := by omega
        have hd : ∀ d, d < 16 → 0 < d → hexDigitChar d ≠ '0' := by decide
        refine ⟨hexDigitChar ((m + 1) % 16), ?_, ?_⟩
        · rw [hq, hexCore_zero]; rfl
        · have : (m + 1) % 16 = m + 1 := Nat.mod_eq_of_lt hlt
          rw [this]; exact hd _ hlt hn
      · have hq1 : 0 < (m + 1) / 16 := Nat.pos_of_ne_zero hq
        have hq2 : (m + 1) / 16 ≤ fuel := by omega
        obtain ⟨c, hc, hc0⟩ := ih _ hq1 hq2
        refine ⟨c, ?_, hc0⟩
        rcases hl : hexCore fuel ((m + 1) / 16) with _ | ⟨a, l⟩
        · rw [hl] at hc; exact absurd hc (by simp)
        · rw [hl] at hc; simpa using hc

/-- The minimal-width property of the hex rendering: `0` renders as `"0"`
and a positive offset never starts with a `'0'` digit. -/
theorem hexStr_no_leading_zero {n : Nat} (hn : 0 < n) :
    (hexStr n).data.head? ≠ some '0' := by
  obtain ⟨c, hc, hc0⟩ := hexCore_first n n hn le_rfl
  have : (hexStr n).data = hexCore n n := by
    simp [hexStr, Nat.pos_iff_ne_zero.mp hn]
  rw [this, hc]
  intro hcon
  exact hc0 (by injection hcon)

/-! ### Characterizing the run orchestrator's fold -/

/-- The lines one input contributes to stdout: none when its open or read
fails, otherwise the selected grep function's output on the trimmed buffer. -/
def inputLines (options : Options) (matcher : Buffer → List Span)
    (inp : String × Input) : List OutLine :=
  match inp.2 with
  | .ok buf => (grepOne options matcher inp.1 (trimBuffer options buf)).1
  | .openErr _ => []
  | .readErr _ => []

/-- One input's match flag: false when its open or read fails. -/
def inputMatched (options : Options) (matcher : Buffer → List Span)
    (inp : String × Input) : Bool :=
  match inp.2 with
  | .ok buf => (grepOne options matcher inp.1 (trimBuffer options buf)).2
  | .openErr _ => false
  | .readErr _ => false

/-- The I/O error an input produces, if any. -/
def inputErr : Input → Option Nat
  | .ok _ => none
  | .openErr e => some e
  | .readErr e => some e

/-- Everything the whole run writes to stdout, input by input. -/
def runOut (options : Options) (matcher : Buffer → List Span) :
    List (String × Input) → List OutLine
  | [] => []
  | p :: rest => inputLines options matcher p ++ runOut options matcher rest

/-- The run's error codes in order; the fold keeps the last of them. -/
def lastErr (files : List (String × Input)) : Option Nat :=
  (files.filterMap (fun p => inputErr p.2)).getLast?

theorem resultAnd_true_idem (a : Except Nat Bool) :
    resultAnd (resultAnd a (.ok true)) (.ok true) = resultAnd a (.ok true) := by
  cases a <;> rfl

theorem getLast?_cons_eq (a : Nat) (l : List Nat) :
    (a :: l).getLast? = some (match l.getLast? with | some e => e | none => a) := by
  induction l generalizing a with
  | nil => rfl
  | cons b l ih => rw [List.getLast?_cons_cons, ih b]

theorem lastErr_cons_err {inp : Input} {e : Nat} (he : inputErr inp = some e)
    (path : String) (rest : List (String × Input)) :
    lastErr ((path, inp) :: rest)
      = some (match lastErr rest with | some f => f | none => e) := by
  unfold lastErr
  rw [List.filterMap_cons]
  simp only [he]
  exact getLast?_cons_eq e _

theorem lastErr_cons_ok (path : String) (buf : Buffer)
    (rest : List (String × Input)) :
    lastErr ((path, .ok buf) :: rest) = lastErr rest := by
  unfold lastErr
  rw [List.filterMap_cons]
  rfl

/-- Full characterization of the fold in `run`, with a generalized
accumulator: the output is the concatenation of every input's lines (an
error never stops the iteration), and the final result is the *last*
error if any input failed, else the accumulated match flag. -/
theorem run_foldl (options : Options) (matcher : Buffer → List Span) :
    ∀ (files : List (String × Input)) (out0 : List OutLine) (res0 : Except Nat Bool),
      files.foldl (runStep options matcher) (out0, res0)
        = (out0 ++ runOut options matcher files,
           match lastErr files with
           | some e => .error e
           | none =>
               if files.any (inputMatched options matcher) then
                 resultAnd res0 (.ok true)
               else res0) := by
  intro files
  induction files with
  | nil => intro out0 res0; simp [runOut, lastErr]
  | cons p rest ih =>
      intro out0 res0
      obtain ⟨path, inp⟩ := p
      rw [List.foldl_cons]
      cases inp with
      | openErr e =>
          rw [show runStep options matcher (out0, res0) (path, .openErr e)
                = (out0, .error e) from rfl,
              ih out0 (.error e),
              show runOut options matcher ((path, .openErr e) :: rest)
                = runOut options matcher rest from rfl,
              @lastErr_cons_err (.openErr e) e rfl path rest,
              show ((path, .openErr e) :: rest).any (inputMatched options matcher)
                = rest.any (inputMatched options matcher) from by
                  rw [List.any_cons]; rfl,
              Prod.mk.injEq]
          refine ⟨rfl, ?_⟩
          cases hE : lastErr rest
          · show (if _ then Except.error e else Except.error e) = _
            rw [ite_self]
          · rfl
      | readErr e =>
          rw [show runStep options matcher (out0, res0) (path, .readErr e)
                = (out0, .error e) from rfl,
              ih out0 (.error e),
              show runOut options matcher ((path, .readErr e) :: rest)
                = runOut options matcher rest from rfl,
              @lastErr_cons_err (.readErr e) e rfl path rest,
              show ((path, .readErr e) :: rest).any (inputMatched options matcher)
                = rest.any (inputMatched options matcher) from by
                  rw [List.any_cons]; rfl,
              Prod.mk.injEq]
          refine ⟨rfl, ?_⟩
          cases hE : lastErr rest
          · show (if _ then Except.error e else Except.error e) = _
            rw [ite_self]
          · rfl
      | ok buf =>
          rw [show runStep options matcher (out0, res0) (path, .ok buf)
                = (out0 ++ inputLines options matcher (path, .ok buf),
                   if inputMatched options matcher (path, .ok buf) then
                     resultAnd res0 (.ok true)
                   else res0) from rfl,
              ih,
              show runOut options matcher ((path, .ok buf) :: rest)
                = inputLines options matcher (path, .ok buf)
                    ++ runOut options matcher rest from rfl,
              lastErr_cons_ok, List.any_cons, List.append_assoc, Prod.mk.injEq]
          refine ⟨rfl, ?_⟩
          cases hE : lastErr rest
          · by_cases hm : inputMatched options matcher (path, .ok buf) <;>
              by_cases ha : rest.any (inputMatched options matcher) <;>
                simp only [hm, ha, Bool.true_or, Bool.false_or, if_pos, if_neg,
                  Bool.false_eq_true, if_true, if_false, resultAnd_true_idem]
          · rfl

theorem sliceBytes_zero_width {buffer : Buffer} {m : Span} (h : m.1 = m.2) :
    sliceBytes buffer m = [] := by
  have hlen : (sliceBytes buffer m).length = 0 := by
    simp [sliceBytes]
    omega
  exact List.eq_nil_of_length_eq_zero hlen

/-! ### The claims -/

/-- C1 (counterexample): the claim that the run aborts at the first I/O
error is false of the code.  With inputs `[open error 7, a matching file]`
in forward Offset mode, the second input is still scanned and its line
`0x0` printed; and with inputs `[open error 7, open error 8]` the final
result is the *second* error, not the first. -/
theorem C1_counterexample :
    (run ⟨false, false, false, false, .Offset⟩ (litMatches [97])
        [("f", .openErr 7), ("g", .ok [97])]).1 = [.text "0x0"]
      ∧ ([OutLine.text "0x0"] : List OutLine) ≠ []
      ∧ (run ⟨false, false, false, false, .Offset⟩ (litMatches [97])
          [("f", .openErr 7), ("g", .openErr 8)]).2 = .error 8
      ∧ (Except.error 8 : Except Nat Bool) ≠ Except.error 7 :=
  ⟨rfl, by simp, rfl, by simp⟩

/-- C1 (amended): an input's open or read error does *not* abort the run:
every subsequent input is still processed and its lines are written; the
run's final result is the **last** error encountered if any input failed
(later errors replace earlier ones), and otherwise `Ok` of whether any
input matched — an error result is never turned back into success by a
later match. -/
theorem C1_run_keeps_last_error (options : Options)
    (matcher : Buffer → List Span) (files : List (String × Input)) :
    run options matcher files
      = (runOut options matcher files,
         match lastErr files with
         | some e => .error e
         | none => .ok (files.any (inputMatched options matcher))) := by
  unfold run
  rw [run_foldl, List.nil_append, Prod.mk.injEq]
  refine ⟨rfl, ?_⟩
  cases lastErr files
  · cases files.any (inputMatched options matcher) <;> rfl
  · rfl

/-- C2: for every buffer length and every match-span sequence satisfying
the matcher's ascending non-overlap invariant, the inverse-mode scan's
cursor never moves backward (the successive `end` values form a monotone
chain), and the gaps the plain-assignment scan of the code emits are
exactly those of the max-based algorithm of §4.2. -/
theorem C2_cursor_never_backward (ms : List Span) (len : Nat)
    (h : ValidFrom 0 len ms) :
    List.Chain' (· ≤ ·) (0 :: ms.map Prod.snd)
      ∧ gapsAsgn 0 ms len = gapsMax 0 ms len :=
  ⟨cursor_monotone h, gapsAsgn_eq_gapsMax h⟩

/-- Witness for C2 at a concrete valid match list containing zero-width
matches. -/
theorem C2_witness :
    ValidFrom 0 5 [(0, 0), (2, 2), (2, 4)]
      ∧ (List.Chain' (· ≤ ·) (0 :: [((0 : Nat), (0 : Nat)), (2, 2), (2, 4)].map Prod.snd)
          ∧ gapsAsgn 0 [(0, 0), (2, 2), (2, 4)] 5 = gapsMax 0 [(0, 0), (2, 2), (2, 4)] 5) :=
  ⟨by decide, C2_cursor_never_backward [(0, 0), (2, 2), (2, 4)] 5 (by decide)⟩

/-- C3 (code bug): `grep_bytes` in inverse mode sets `matched` only for
the first split fragment.  For pattern `ab` and buffer `abxx` the first
fragment is empty, so the line `xx` is written but the function returns
`false` — contradicting its own contract ("returns whether there was a
match", used by the orchestrator as this input's match flag) and the
claimed "true iff at least one line was written". -/
theorem C3_code_bug_eval :
    grep_bytes ⟨false, true, false, false, .Bytes⟩
        (litMatches [97, 98] [97, 98, 120, 120]) [97, 98, 120, 120]
      = ([[120, 120]], false) := by decide

/-- C4: for every buffer length and valid match-span sequence, forward
match spans plus inverse gap spans cover every byte index in
`[0, len)` exactly once (the complementarity invariant). -/
theorem C4_partition (ms : List Span) (len : Nat) (h : ValidFrom 0 len ms)
    (i : Nat) (hi : i < len) :
    (ms ++ gapsAsgn 0 ms len).countP (containsIdx i) = 1 :=
  partitionFrom h (Nat.zero_le i) hi

/-- Witness for C4 at a concrete valid match list and index. -/
theorem C4_witness :
    ValidFrom 0 10 [(2, 4), (6, 8)] ∧ (3 : Nat) < 10
      ∧ ([((2 : Nat), (4 : Nat)), (6, 8)]
            ++ gapsAsgn 0 [(2, 4), (6, 8)] 10).countP (containsIdx 3) = 1 :=
  ⟨by decide, by decide, C4_partition [(2, 4), (6, 8)] 10 (by decide) 3 (by decide)⟩

/-- C5: `grep_filename` returns exactly (raw XOR `non_matching`), where
raw is "≥1 match" in forward mode and "≥1 gap span per §4.2" in inverse
mode; it writes the path exactly once when that boolean is true and
nothing otherwise — never more than once. -/
theorem C5_filename_once (options : Options) (path : String) (ms : List Span)
    (len : Nat) (h : ValidFrom 0 len ms) :
    (grep_filename options path ms len).2
        = ((if options.inverse then !(gapsMax 0 ms len).isEmpty else !ms.isEmpty)
            ^^ options.non_matching)
      ∧ (grep_filename options path ms len).1
          = (if (grep_filename options path ms len).2 then [path] else [])
      ∧ (grep_filename options path ms len).1.length ≤ 1 := by
  have hkey : ((findHole 0 ms).1.isSome || decide ((findHole 0 ms).2 < len))
      = !(gapsAsgn 0 ms len).isEmpty := findHole_iff_gaps ms 0
  rw [gapsAsgn_eq_gapsMax h] at hkey
  by_cases hinv : options.inverse
  · refine ⟨?_, ?_, ?_⟩
    · simp only [grep_filename, hinv, if_true, hkey]
    · simp only [grep_filename, hinv, if_true]
    · simp only [grep_filename, hinv, if_true]
      cases ((findHole 0 ms).1.isSome || decide ((findHole 0 ms).2 < len))
          ^^ options.non_matching <;> simp
  · have hinv' : options.inverse = false := by simpa using hinv
    refine ⟨?_, ?_, ?_⟩
    · simp only [grep_filename, hinv', Bool.false_eq_true, if_false]
    · simp only [grep_filename, hinv', Bool.false_eq_true, if_false]
    · simp only [grep_filename, hinv', Bool.false_eq_true, if_false]
      cases (!ms.isEmpty) ^^ options.non_matching <;> simp

/-- Witness for C5: inverse FileName mode on a buffer whose single match
covers a strict front portion, leaving one gap. -/
theorem C5_witness :
    (grep_filename ⟨false, true, false, false, .FileName⟩ "f" [(0, 2)] 4).2
        = ((if (⟨false, true, false, false, .FileName⟩ : Options).inverse then
              !(gapsMax 0 [(0, 2)] 4).isEmpty
            else !(List.isEmpty [((0 : Nat), (2 : Nat))]))
            ^^ (⟨false, true, false, false, .FileName⟩ : Options).non_matching)
      ∧ (grep_filename ⟨false, true, false, false, .FileName⟩ "f" [(0, 2)] 4).1
          = (if (grep_filename ⟨false, true, false, false, .FileName⟩ "f" [(0, 2)] 4).2
              then ["f"] else [])
      ∧ (grep_filename ⟨false, true, false, false, .FileName⟩ "f" [(0, 2)] 4).1.length ≤ 1 :=
  C5_filename_once ⟨false, true, false, false, .FileName⟩ "f" [(0, 2)] 4 (by decide)

/-- C6: inverse Bytes mode (split-based) emits exactly the slices of the
§4.2 gap spans, in order — all of which are non-empty (empty fragments
are skipped and the derivation never produces a degenerate gap) — and on
pattern `ab`, buffer `xxabxxabxx` it emits the three lines `xx`, `xx`,
`xx`. -/
theorem C6_inverse_bytes_gaps (options : Options) (hinv : options.inverse = true)
    (ms : List Span) (buffer : Buffer) (h : ValidFrom 0 buffer.length ms) :
    (grep_bytes options ms buffer).1
        = (gapsMax 0 ms buffer.length).map (sliceBytes buffer)
      ∧ (∀ g ∈ gapsMax 0 ms buffer.length, g.1 < g.2)
      ∧ (grep_bytes ⟨false, true, false, false, .Bytes⟩
            (litMatches [97, 98] [120, 120, 97, 98, 120, 120, 97, 98, 120, 120])
            [120, 120, 97, 98, 120, 120, 97, 98, 120, 120]).1
          = [[120, 120], [120, 120], [120, 120]] := by
  refine ⟨?_, ?_, by decide⟩
  · rw [grep_bytes_inverse_lines hinv, splitSlices_filter h (Nat.zero_le _),
      gapsAsgn_eq_gapsMax h]
  · intro g hg
    rw [← gapsAsgn_eq_gapsMax h] at hg
    exact (gapsAsgn_mem h g hg).2.1

/-- Witness for C6 at the spec's Example 2. -/
theorem C6_witness :
    (grep_bytes ⟨false, true, false, false, .Bytes⟩
          (litMatches [97, 98] [120, 120, 97, 98, 120, 120, 97, 98, 120, 120])
          [120, 120, 97, 98, 120, 120, 97, 98, 120, 120]).1
        = (gapsMax 0 (litMatches [97, 98] [120, 120, 97, 98, 120, 120, 97, 98, 120, 120])
              ([120, 120, 97, 98, 120, 120, 97, 98, 120, 120] : Buffer).length).map
            (sliceBytes [120, 120, 97, 98, 120, 120, 97, 98, 120, 120]) :=
  (C6_inverse_bytes_gaps ⟨false, true, false, false, .Bytes⟩ rfl
      (litMatches [97, 98] [120, 120, 97, 98, 120, 120, 97, 98, 120, 120])
      [120, 120, 97, 98, 120, 120, 97, 98, 120, 120] (by decide)).1

/-- C7: neither `grep_bytes` nor `grep_offset` reads `non_matching`:
flipping it changes neither the lines written nor the boolean returned,
for either polarity (only FileName mode uses it). -/
theorem C7_non_matching_inert (ci inv nm1 nm2 t : Bool) (o : Output)
    (ms : List Span) (buffer : Buffer) (len : Nat) :
    grep_bytes ⟨ci, inv, nm1, t, o⟩ ms buffer
        = grep_bytes ⟨ci, inv, nm2, t, o⟩ ms buffer
      ∧ grep_offset ⟨ci, inv, nm1, t, o⟩ ms len
          = grep_offset ⟨ci, inv, nm2, t, o⟩ ms len :=
  ⟨rfl, rfl⟩

/-- C8: when trimming is requested and the buffer ends in a newline byte,
exactly that one byte is removed (the rest of the buffer is unchanged);
otherwise the buffer is scanned as read — at most one byte is ever
trimmed even if the input ends in several newlines. -/
theorem C8_trim_one_newline (options : Options) (buffer : Buffer) :
    (options.trim_ending_newline = true → buffer.getLast? = some 10 →
        trimBuffer options buffer ++ [10] = buffer)
      ∧ (options.trim_ending_newline = false → trimBuffer options buffer = buffer)
      ∧ (buffer.getLast? ≠ some 10 → trimBuffer options buffer = buffer) := by
  refine ⟨?_, ?_, ?_⟩
  · intro ht hl
    have hcond : (options.trim_ending_newline && buffer.getLast? == some 10) = true := by
      rw [ht, hl]; rfl
    unfold trimBuffer
    rw [if_pos hcond]
    exact List.dropLast_append_getLast? 10 (Option.mem_def.mpr hl)
  · intro ht
    unfold trimBuffer
    rw [if_neg (by rw [ht]; simp)]
  · intro hl
    unfold trimBuffer
    rw [if_neg (by simp [hl])]

/-- Witness for C8: with trimming on, a buffer ending in two newlines
loses exactly one of them; with trimming off it is untouched. -/
theorem C8_witness :
    trimBuffer ⟨false, false, false, true, .Bytes⟩ [97, 10, 10] ++ [10] = [97, 10, 10]
      ∧ trimBuffer ⟨false, false, false, false, .Bytes⟩ [97, 10] = [97, 10] :=
  ⟨(C8_trim_one_newline ⟨false, false, false, true, .Bytes⟩ [97, 10, 10]).1 rfl rfl,
   (C8_trim_one_newline ⟨false, false, false, false, .Bytes⟩ [97, 10]).2.1 rfl⟩

/-- C9: forward Offset mode writes one line per match, in order, each
being `0x` followed by the start offset in minimal lowercase hex (`0`
renders as `"0"`, and a positive offset's rendering never starts with a
zero digit); on pattern `ab`, buffer `xxabxxabxx` the output is `0x2`,
`0x6`. -/
theorem C9_forward_offset (options : Options) (hinv : options.inverse = false)
    (ms : List Span) (len : Nat) :
    (grep_offset options ms len).1 = ms.map (fun m => hexLine m.1)
      ∧ (∀ n : Nat, 0 < n → (hexStr n).data.head? ≠ some '0')
      ∧ hexStr 0 = "0"
      ∧ (grep_offset ⟨false, false, false, false, .Offset⟩
            (litMatches [97, 98] [120, 120, 97, 98, 120, 120, 97, 98, 120, 120]) 10).1
          = ["0x2", "0x6"] := by
  refine ⟨?_, fun n hn => hexStr_no_leading_zero hn, rfl, by decide⟩
  cases ms <;> simp [grep_offset, hinv]

/-- Witness for C9 at the spec's Example 1. -/
theorem C9_witness :
    (grep_offset ⟨false, false, false, false, .Offset⟩
          (litMatches [97, 98] [120, 120, 97, 98, 120, 120, 97, 98, 120, 120]) 10).1
        = (litMatches [97, 98] [120, 120, 97, 98, 120, 120, 97, 98, 120, 120]).map
            (fun m => hexLine m.1) :=
  (C9_forward_offset ⟨false, false, false, false, .Offset⟩ rfl
      (litMatches [97, 98] [120, 120, 97, 98, 120, 120, 97, 98, 120, 120]) 10).1

/-- C10: in forward mode, zero-width matches are reported like any other
match: Bytes mode writes an empty line per zero-width match, Offset mode
writes its start offset, and a non-empty list of only zero-width matches
still yields a returned boolean of `true` in both modes. -/
theorem C10_zero_width_forward (options : Options) (hinv : options.inverse = false)
    (ms : List Span) (buffer : Buffer) (len : Nat)
    (hne : ms ≠ []) (hzw : ∀ m ∈ ms, m.1 = m.2) :
    grep_bytes options ms buffer = (ms.map (fun _ => ([] : List Nat)), true)
      ∧ grep_offset options ms len = (ms.map (fun m => hexLine m.1), true) := by
  constructor
  · cases ms with
    | nil => exact absurd rfl hne
    | cons m rest =>
        have hmap : List.map (sliceBytes buffer) rest
            = List.map (fun _ => ([] : List Nat)) rest :=
          List.map_congr_left fun x hx =>
            sliceBytes_zero_width (hzw x (List.mem_cons_of_mem m hx))
        simp only [grep_bytes, hinv, Bool.false_eq_true, if_false, List.map_cons,
          sliceBytes_zero_width (hzw m (List.mem_cons_self m rest)), hmap]
  · cases ms with
    | nil => exact absurd rfl hne
    | cons m rest =>
        simp [grep_offset, hinv]

/-- Witness for C10: the empty pattern on buffer `xx` matches zero-width
at every position. -/
theorem C10_witness :
    litMatches [] [120, 120] ≠ []
      ∧ (∀ m ∈ litMatches [] [120, 120], m.1 = m.2)
      ∧ grep_bytes ⟨false, false, false, false, .Bytes⟩ (litMatches [] [120, 120]) [120, 120]
          = ((litMatches [] [120, 120]).map (fun _ => ([] : List Nat)), true)
      ∧ grep_offset ⟨false, false, false, false, .Bytes⟩ (litMatches [] [120, 120]) 2
          = ((litMatches [] [120, 120]).map (fun m => hexLine m.1), true) :=
  ⟨by decide, by decide,
   (C10_zero_width_forward ⟨false, false, false, false, .Bytes⟩ rfl
      (litMatches [] [120, 120]) [120, 120] 2 (by decide) (by decide)).1,
   (C10_zero_width_forward ⟨false, false, false, false, .Bytes⟩ rfl
      (litMatches [] [120, 120]) [120, 120] 2 (by decide) (by decide)).2⟩

end Bgrep
